import Mathlib

/-!
Verification of the market-data reconciliation engine of
`poe_tracker` (`api.py` / `data.py`) against its natural-language
specification.

Conventions of the shallow embedding:

* Python floats are modelled as `Rat` (exact arithmetic; the modelled code
  never relies on rounding, NaN or infinities on the paths under study).
* Python ints are modelled as `Int`.
* A JSON value decoded by `json.loads` is modelled by `JsonVal`.  A decoded
  JSON object is an association list with distinct keys; `dict.get` is
  first-match lookup returning `Option`.
* Python truthiness is modelled explicitly where the source relies on it
  (`0.0`, `""`, `[]`, `None`, `0` are falsy).
* Python's `bool` is a subtype of `int`, so `isinstance(True, (int, float))`
  holds and `float(True) = 1.0`; the embedding of `_extract_float` reflects
  this.
* String operations (`strip`, `lower`, regex `\w`) are modelled on ASCII
  data, which covers every concrete input used in the theorems below.
* Functions performing network calls are modelled as pure functions of an
  environment assigning to each candidate endpoint/alias the decoded
  response (`none` standing for a transport failure or a JSON decode
  failure, both of which the source catches identically).  An uncaught
  Python exception is modelled by `Except.error`.
-/

/-- A decoded JSON value as produced by Python's `json.loads`. -/
inductive JsonVal where
  | num (q : Rat)
  | str (s : String)
  | bool (b : Bool)
  | null
  | arr (elems : List JsonVal)
  | obj (fields : List (String × JsonVal))

/-- A decoded JSON object (Python `dict`) as an association list. -/
abbrev JsonObj := List (String × JsonVal)

/-- First-match association lookup: Python `dict.get(key)` (keys of a decoded
JSON object are distinct, so first-match agrees with `dict` semantics). -/
def objGet (fields : JsonObj) (key : String) : Option JsonVal :=
  match fields with
  | [] => none
  | (k, v) :: rest => if k = key then some v else objGet rest key

/-- Character of a simple (unsigned, no exponent) decimal literal. -/
def digitVal (c : Char) : Option Nat :=
  if c.isDigit then some (c.toNat - '0'.toNat) else none

/-- Parse a nonempty digit run into a natural number. -/
def parseDigits : List Char → Option Nat
  | [] => none
  | cs => cs.foldl (fun acc c => match acc, digitVal c with
      | some n, some d => some (n * 10 + d)
      | _, _ => none) (some 0)

/-- Model of Python's `float(str)` on finite decimal literals: optional
surrounding whitespace, optional sign, digits with an optional fractional
part.  (Exponents, `inf` and `nan` spellings are outside the fragment
exercised here; a string outside the modelled grammar is "malformed" and
yields `none`, exactly as `float()` raising `ValueError` does.) -/
def pyFloatParse (s : String) : Option Rat :=
  let cs := (s.toList.dropWhile Char.isWhitespace).reverse.dropWhile Char.isWhitespace |>.reverse
  let (sign, cs) : Rat × List Char :=
    match cs with
    | '-' :: rest => (-1, rest)
    | '+' :: rest => (1, rest)
    | _ => (1, cs)
  let intPart := cs.takeWhile (·.isDigit)
  let rest := cs.dropWhile (·.isDigit)
  match rest with
  | [] =>
      match parseDigits intPart with
      | some n => some (sign * n)
      | none => none
  | '.' :: frac =>
      if frac.all (·.isDigit) ∧ (intPart ≠ [] ∨ frac ≠ []) then
        let num := (parseDigits (intPart ++ frac)).getD ((parseDigits intPart).getD 0)
        some (sign * (num : Rat) / ((10 : Rat) ^ frac.length))
      else none
  | _ => none

/-- Embedding of `_extract_float` (`api.py:93-101`) on a decoded JSON value.
`isinstance(value, (int, float))` is true for Python booleans (`bool` is an
`int` subtype), so `true ↦ 1.0` and `false ↦ 0.0`; a string goes through
`float(str)` with `ValueError` caught; everything else yields `None`. -/
def extractFloatV : JsonVal → Option Rat
  | .num q => some q
  | .bool b => some (if b then 1 else 0)
  | .str s => pyFloatParse s
  | _ => none

/-- `_extract_float(node.get(key))`: the ubiquitous composition in `api.py`
(a missing key gives Python `None`, on which `_extract_float` yields `None`). -/
def extractFloat : Option JsonVal → Option Rat
  | some v => extractFloatV v
  | none => none

/-- Python `x or y` on optional floats: `x` wins iff it is truthy
(non-`None` and nonzero), otherwise `y` is returned as-is. -/
def pyOr (a b : Option Rat) : Option Rat :=
  match a with
  | some q => if q = 0 then b else some q
  | none => b

/-- Truthiness of an optional float (`if divine_rate:` etc.). -/
def truthyR : Option Rat → Bool
  | some q => q ≠ 0
  | none => false

/-- Truthiness of an optional int (`if entry.trade_count:` etc.). -/
def truthyI : Option Int → Bool
  | some n => n ≠ 0
  | none => false

/-- Truthiness of an optional string (`if entry.icon_url:` etc.). -/
def truthyS : Option String → Bool
  | some s => s ≠ ""
  | none => false

/-- Python `str.lower()` (ASCII model). -/
def lowerStr (s : String) : String :=
  String.mk (s.toList.map Char.toLower)

/-- Python `str.strip()` (whitespace trimmed from both ends). -/
def stripStr (s : String) : String :=
  String.mk (((s.toList.dropWhile Char.isWhitespace).reverse.dropWhile Char.isWhitespace).reverse)

/-- Embedding of `_norm_key` on a present string: `text.strip().lower()`. -/
def normKey (s : String) : String :=
  lowerStr (stripStr s)

/-- Embedding of `_slug_key`: the normalized form with spaces replaced by
hyphens. -/
def slugKey (s : String) : String :=
  String.mk ((normKey s).toList.map (fun c => if c = ' ' then '-' else c))

/-- Character class kept by `_PUNCT_CLEANER` (`[^\w\s-]+` removed): word
characters (ASCII model of `\w`), whitespace and hyphens survive. -/
def keptChar (c : Char) : Bool :=
  c.isAlphanum || c = '_' || c.isWhitespace || c = '-'

/-- Split a character list on whitespace runs, dropping empty groups
(Python `str.split()`). -/
def splitWs (cs : List Char) : List (List Char) :=
  (cs.foldr (fun c acc =>
     if c.isWhitespace then [] :: acc
     else match acc with
       | [] => [[c]]
       | g :: gs => (c :: g) :: gs) []).filter (· ≠ [])

/-- Embedding of `_nopunct_key`: normalize, strip punctuation, collapse
whitespace to single spaces. -/
def nopunctKey (s : String) : String :=
  let base := normKey s
  let cleaned := base.toList.filter keptChar
  String.intercalate " " ((splitWs cleaned).map String.mk)

/-- Keep the first occurrence of each element (Python set insertion model;
the set `{norm, slug, nopunct}` in `_collect_keys` only deduplicates). -/
def dedupFirst : List String → List String
  | [] => []
  | x :: xs => x :: (dedupFirst xs).filter (· ≠ x)

/-- The key-variant set `{_norm_key, _slug_key, _nopunct_key}` of one string
value in `_collect_keys`, with empty variants dropped (`if variant:`). -/
def keyVariants (s : String) : List String :=
  (dedupFirst [normKey s, slugKey s, nopunctKey s]).filter (· ≠ "")

/-- Embedding of `CurrencyEntry` (`data.py:7-19`), the MarketEntity of the
spec.  `chaos_value` is the base-unit valuation (`baseValue`),
`divine_value` the baseline ratio, `exalt_value` the premium ratio. -/
structure CurrencyEntry where
  name : String
  chaos_value : Rat
  divine_value : Option Rat := none
  exalt_value : Option Rat := none
  change_percent : Option Rat := none
  sparkline : List Rat := []
  trade_count : Option Int := none
  details_id : Option String := none
  icon_url : Option String := none
deriving DecidableEq, Repr

/-- The normalized key set of an entity as computed by
`_collect_keys(entry.details_id, entry.name)` (`api.py:125-139`, applied at
`api.py:388`): the `details_id` (skipped when `None`) contributes its
variants first, then the name. -/
def entryKeys (e : CurrencyEntry) : List String :=
  (match e.details_id with
   | some d => keyVariants d
   | none => []) ++ keyVariants e.name

/-- The direct "already in base unit" field cascade of
`_compute_chaos_from_line` (`api.py:162-168`): the Python `or`-chain over
the five shape-specific fields.  An earlier field extracting to `0.0` is
falsy and falls through; the final `secondary` operand is returned as-is. -/
def directChain (line : JsonObj) : Option Rat :=
  pyOr (extractFloat (objGet line "chaosEquivalent"))
    (pyOr (extractFloat (objGet line "chaosValue"))
      (pyOr (extractFloat (objGet line "secondaryValue"))
        (pyOr (extractFloat (objGet line "valueChaos"))
          (extractFloat (objGet line "secondary")))))

/-- The nested `rate` object sub-cascade of `_compute_chaos_from_line`
(`api.py:177-190`): per-item rate, else reciprocal of a positive
items-per-base-unit rate, else a rate-object base-unit field, else a
premium-unit rate scaled by the conversion rate. -/
def rateSubCascade (rfs : JsonObj) (divineRate : Option Rat) : Option Rat :=
  let divineStep : Option Rat :=
    match extractFloat (objGet rfs "divine"), divineRate with
    | some dv, some r => if r = 0 then none else some (dv * r)
    | _, _ => none
  let chaosEqStep : Option Rat :=
    match extractFloat (objGet rfs "chaosValue") with
    | some ceq => some ceq
    | none => divineStep
  match extractFloat (objGet rfs "chaosPerItem") with
  | some cpi => some cpi
  | none =>
    match extractFloat (objGet rfs "chaos") with
    | some ipc => if 0 < ipc then some (1 / ipc) else chaosEqStep
    | none => chaosEqStep

/-- Stage 4 of `_compute_chaos_from_line` (`api.py:177-190`): the
`rate`-object sub-cascade, entered only when `line["rate"]` is a dict. -/
def rateObjStep (line : JsonObj) (divineRate : Option Rat) : Option Rat :=
  match objGet line "rate" with
  | some (.obj rfs) => rateSubCascade rfs divineRate
  | _ => none

/-- Embedding of `_compute_chaos_from_line` (`api.py:161-191`), the
Chaos-Equivalent Resolver: direct fields, then `primaryValue × rate`, then
`volumePrimaryValue × rate` (both only when the rate is truthy), then the
`rate`-object sub-cascade, else absence. -/
def computeChaosFromLine (line : JsonObj) (divineRate : Option Rat) : Option Rat :=
  match directChain line with
  | some v => some v
  | none =>
    let rateStep : Option Rat := rateObjStep line divineRate
    let volumeStep : Option Rat :=
      match extractFloat (objGet line "volumePrimaryValue"), divineRate with
      | some vp, some r => if r = 0 then rateStep else some (vp * r)
      | _, _ => rateStep
    match extractFloat (objGet line "primaryValue"), divineRate with
    | some p, some r => if r = 0 then volumeStep else some (p * r)
    | some _, none => volumeStep
    | none, _ => volumeStep

/-- Embedding of `_merge_entry_attributes` (`api.py:368-381`): the in-place
mutation of the owner `target` is modelled by returning the updated owner.
Base value: max; baseline (divine) ratio: max of the set ones; trend,
volume, icon: filled only when the owner's value is falsy; change percent:
filled only when the owner's is `None`.  `name` and `details_id` are not
touched. -/
def mergeEntryAttributes (t s : CurrencyEntry) : CurrencyEntry :=
  { t with
    chaos_value := if t.chaos_value < s.chaos_value then s.chaos_value else t.chaos_value
    divine_value :=
      match s.divine_value, t.divine_value with
      | some sv, none => some sv
      | some sv, some tv => if tv < sv then some sv else some tv
      | none, tv => tv
    sparkline := if t.sparkline = [] ∧ s.sparkline ≠ [] then s.sparkline else t.sparkline
    trade_count := if ¬ truthyI t.trade_count ∧ truthyI s.trade_count then s.trade_count else t.trade_count
    change_percent :=
      match t.change_percent, s.change_percent with
      | none, some sv => some sv
      | tc, _ => tc
    icon_url := if ¬ truthyS t.icon_url ∧ truthyS s.icon_url then s.icon_url else t.icon_url }

/-- Replace the element at index `i` (no-op when out of range); models the
in-place mutation of `ordered[i]` through the shared object reference in
`_deduplicate_entries`. -/
def modifyIdx (f : CurrencyEntry → CurrencyEntry) : Nat → List CurrencyEntry → List CurrencyEntry
  | _, [] => []
  | 0, x :: xs => f x :: xs
  | n + 1, x :: xs => x :: modifyIdx f n xs

/-- First-match lookup in the `key_to_entry` map (entries keep the index of
the owning entity in the `ordered` list). -/
def lookupKey : List (String × Nat) → String → Option Nat
  | [], _ => none
  | (k, i) :: rest, key => if k = key then some i else lookupKey rest key

/-- Python `dict.setdefault(key, i)`: add the binding only when the key is
absent. -/
def setdefaultKey (m : List (String × Nat)) (k : String) (i : Nat) : List (String × Nat) :=
  match lookupKey m k with
  | some _ => m
  | none => m ++ [(k, i)]

/-- The `for key in keys: key_to_entry.setdefault(key, owner)` loop of
`_deduplicate_entries` (`api.py:400-402`), with the `if key:` truthiness
filter. -/
def addKeys (m : List (String × Nat)) (ks : List String) (i : Nat) : List (String × Nat) :=
  match ks with
  | [] => m
  | k :: rest => addKeys (if k = "" then m else setdefaultKey m k i) rest i

/-- The owner-search loop of `_deduplicate_entries` (`api.py:391-394`):
the first key variant already owned wins. -/
def findOwner (m : List (String × Nat)) : List String → Option Nat
  | [] => none
  | k :: ks =>
    match lookupKey m k with
    | some i => some i
    | none => findOwner m ks

/-- The fallback `primary_key` of `_deduplicate_entries` (`api.py:389`),
used only when the entity produced no key variants. -/
def primaryKeyOf (e : CurrencyEntry) : String :=
  lowerStr (stripStr e.name)

/-- State of the `_deduplicate_entries` loop: surviving owners in encounter
order plus the key → owner-index map. -/
structure DedupState where
  owners : List CurrencyEntry
  kmap : List (String × Nat)

/-- One iteration of the `_deduplicate_entries` loop (`api.py:387-402`):
look up an owner through any key variant; merge into it if found, else the
entity becomes a new owner; then map every key variant to the owner. -/
def dedupStep (st : DedupState) (e : CurrencyEntry) : DedupState :=
  let keys := entryKeys e
  match findOwner st.kmap keys with
  | some i =>
      { owners := modifyIdx (fun t => mergeEntryAttributes t e) i st.owners
        kmap := addKeys st.kmap keys i }
  | none =>
      { owners := st.owners ++ [e]
        kmap := addKeys st.kmap (if keys = [] then [primaryKeyOf e] else keys) st.owners.length }

/-- Embedding of `_deduplicate_entries` (`api.py:383-404`). -/
def deduplicateEntries (entries : List CurrencyEntry) : List CurrencyEntry :=
  (entries.foldl dedupStep ⟨[], []⟩).owners

/-- Substring containment on character lists (Python `pat in hay`). -/
def containsSubAux (pat : List Char) : List Char → Bool
  | [] => pat.isEmpty
  | c :: rest => pat.isPrefixOf (c :: rest) || containsSubAux pat rest

/-- Python `pat in hay` on strings. -/
def containsSub (hay pat : String) : Bool :=
  containsSubAux pat.toList hay.toList

/-- The exact-style candidate scan of `_apply_exalted_values`
(`api.py:410-417`): a name containing "exalted orb" but neither "perfect"
nor "greater", or failing that an external id equal to "exalted-orb",
contributes its positive base value. -/
def exaltCandidatesExact (entries : List CurrencyEntry) : List Rat :=
  entries.filterMap (fun e =>
    let name := lowerStr e.name
    let details := lowerStr (e.details_id.getD "")
    if containsSub name "exalted orb" ∧ ¬ containsSub name "perfect" ∧ ¬ containsSub name "greater" then
      if 0 < e.chaos_value then some e.chaos_value else none
    else if details = "exalted-orb" ∧ 0 < e.chaos_value then some e.chaos_value else none)

/-- The looser fallback scan of `_apply_exalted_values` (`api.py:418-422`):
any name containing "exalt" with a positive base value. -/
def exaltCandidatesLoose (entries : List CurrencyEntry) : List Rat :=
  entries.filterMap (fun e =>
    if containsSub (lowerStr e.name) "exalt" ∧ 0 < e.chaos_value then some e.chaos_value else none)

/-- Candidate reference prices for the premium unit: the exact-style scan,
or the looser scan only when the former found nothing. -/
def exaltCandidates (entries : List CurrencyEntry) : List Rat :=
  let c := exaltCandidatesExact entries
  if c = [] then exaltCandidatesLoose entries else c

/-- The reference price chosen by `_apply_exalted_values` (`api.py:423-424`):
`min(candidates)` when any candidate exists. -/
def exaltRefPrice (entries : List CurrencyEntry) : Option Rat :=
  match exaltCandidates entries with
  | [] => none
  | c :: cs => some (cs.foldl min c)

/-- Embedding of `_apply_exalted_values` (`api.py:407-428`), the Derived
Ratio Calculator for the premium unit: no reference (or a non-positive one)
leaves the list untouched; otherwise every entity's premium ratio is
stamped (`None` for a falsy base value). -/
def applyExaltedValues (entries : List CurrencyEntry) : List CurrencyEntry :=
  match exaltRefPrice entries with
  | none => entries
  | some p =>
      if p ≤ 0 then entries
      else entries.map (fun e =>
        { e with exalt_value := if e.chaos_value = 0 then none else some (e.chaos_value / p) })

/-- Stable descending insertion: place `e` before the first element whose
base value does not exceed `e`'s. -/
def insertDesc (e : CurrencyEntry) : List CurrencyEntry → List CurrencyEntry
  | [] => [e]
  | x :: xs => if x.chaos_value ≤ e.chaos_value then e :: x :: xs else x :: insertDesc e xs

/-- Model of `entries.sort(key=lambda item: item.chaos_value, reverse=True)`
(`api.py:516` and `api.py:1242`): Python's sort is stable and `reverse=True`
keeps equal-key elements in their original order, so any stable descending
sort is extensionally the same list. -/
def sortByChaosDesc (l : List CurrencyEntry) : List CurrencyEntry :=
  l.foldr insertDesc []

/-- The snapshot-wide baseline stamping of `_fetch_poe2_snapshot`
(`api.py:513-515`): with a truthy positive divine rate, every entity's
baseline ratio is recomputed (`None` for a falsy base value). -/
def stampDivine (entries : List CurrencyEntry) (divineRate : Option Rat) : List CurrencyEntry :=
  match divineRate with
  | some r =>
      if 0 < r then
        entries.map (fun e =>
          { e with divine_value := if e.chaos_value = 0 then none else some (e.chaos_value / r) })
      else entries
  | none => entries

/-- The final entity pipeline of `_fetch_poe2_snapshot` (`api.py:513-517`)
from the deduplicated list to the snapshot's `entries`: baseline stamping,
stable descending sort, premium-ratio stamping.  (The PoE1 path
`_parse_snapshot_payload` + `_apply_exalted_values` is the `divineRate =
none` instance.) -/
def assemblePoe2Entries (entries : List CurrencyEntry) (divineRate : Option Rat) : List CurrencyEntry :=
  applyExaltedValues (sortByChaosDesc (stampDivine entries divineRate))

/-- `MAX_DETAIL_ENTRIES` (`api.py:27`). -/
def MAX_DETAIL_ENTRIES : Nat := 50

/-- The detail-fetch id selection of `_apply_exchange_overview_data`
(`api.py:731-735`): the external ids of the first `MAX_DETAIL_ENTRIES`
entities of the (not yet value-sorted) entity list, skipping falsy ids. -/
def detailIds (entries : List CurrencyEntry) : List String :=
  (entries.take MAX_DETAIL_ENTRIES).filterMap (fun e =>
    match e.details_id with
    | some s => if s = "" then none else some s
    | none => none)

/-- `POE2_OVERVIEW_ALIASES` (`api.py:31-44`). -/
def POE2_OVERVIEW_ALIASES : List (String × List String) :=
  [("currency", ["Currency", "currency"]),
   ("fragments", ["Fragments", "fragments", "fragment"]),
   ("essences", ["Essences", "Essence", "essence"]),
   ("talismans", ["Talismans", "Talisman", "talismans"]),
   ("delirium", ["Delirium", "delirium", "delirious"]),
   ("abyss", ["Abyss", "abyss"]),
   ("omens", ["Ritual", "Omen", "omen"]),
   ("catalysts", ["Breach", "Catalyst", "catalysts"]),
   ("soul-cores", ["Ultimatum", "SoulCores", "SoulCore"]),
   ("runes", ["Runes", "rune"]),
   ("expeditions", ["Expedition", "expeditions"]),
   ("uncutgems", ["UncutGems", "UncutGem", "uncutgems"])]

/-- `POE2_FALLBACK_OVERVIEWS` (`api.py:46-59`). -/
def POE2_FALLBACK_OVERVIEWS : List String :=
  ["Currency", "Fragments", "Essence", "Talismans", "Delirium", "Abyss",
   "Ritual", "Catalyst", "Ultimatum", "Runes", "Expedition", "UncutGems"]

/-- First-match lookup in the alias table (Python `dict.get`). -/
def aliasTableGet : List (String × List String) → String → Option (List String)
  | [], _ => none
  | (k, v) :: rest, key => if k = key then some v else aliasTableGet rest key

/-- Embedding of `_fetch_poe2_items_once` (`api.py:545-576`).  `env` maps an
overview alias to the decoded response body; `none` stands for a transport
failure (`ApiError`) or a JSON decode failure, both caught and turned into
`[]`.  A decoded body that is not an object hits `data.get("items")` on a
non-`dict`, which raises an uncaught `AttributeError`, modelled by
`Except.error`. -/
def fetchPoe2ItemsOnce (env : String → Option JsonVal) (a : String) :
    Except String (List JsonVal) :=
  match env a with
  | none => .ok []
  | some (.obj fields) =>
      .ok (match objGet fields "items" with
        | some (.arr items) => items
        | _ =>
          match objGet fields "lines" with
          | some (.arr lines) => lines
          | _ =>
            match objGet fields "entries" with
            | some (.arr es) => es
            | _ => [])
  | some _ => .error "AttributeError"

/-- The alias loop of `_fetch_poe2_items_with_aliases` (`api.py:535-542`):
skip empty or already-tried aliases, return the first non-empty item list,
and propagate any uncaught exception. -/
def fetchItemsWithAliasesGo (env : String → Option JsonVal) (tried : List String) :
    List String → Except String (List JsonVal)
  | [] => .ok []
  | a :: rest =>
      if a = "" ∨ a ∈ tried then fetchItemsWithAliasesGo env tried rest
      else
        match fetchPoe2ItemsOnce env a with
        | .error msg => .error msg
        | .ok items => if items.isEmpty then fetchItemsWithAliasesGo env (a :: tried) rest else .ok items

/-- Embedding of `_fetch_poe2_items_with_aliases` (`api.py:526-542`): the
category's alias list (or the category itself) followed by the fixed
fallback overview names. -/
def fetchItemsWithAliases (env : String → Option JsonVal) (category : String) :
    Except String (List JsonVal) :=
  let aliases := (aliasTableGet POE2_OVERVIEW_ALIASES (lowerStr category)).getD [category]
  fetchItemsWithAliasesGo env [] (aliases ++ POE2_FALLBACK_OVERVIEWS)

/-- The `chaos_value` stored on an entity synthesized by
`_add_unmatched_overview_entries` (`api.py:1036-1046`): the constructor
assigns `_compute_chaos_from_line(line, divine_rate)` directly — an
`Optional[float]` — into the `chaos_value` field that `CurrencyEntry`
declares as `float`, and the immediate `_update_entry_from_overview` call
recomputes the same expression, overwriting only when it is not `None`. -/
def addUnmatchedEntryChaos (line : JsonObj) (divineRate : Option Rat) : Option Rat :=
  match computeChaosFromLine line divineRate with
  | some v => some v
  | none => computeChaosFromLine line divineRate

/-- C9, counterexample: `_extract_float` does not signal absence on every
non-number, non-numeric-string input — a JSON boolean `true` (a Python
`bool`, which `isinstance(…, (int, float))` accepts) yields `1.0`, not
absence. -/
theorem c9_counterexample :
    extractFloatV (JsonVal.bool true) = some 1 ∧ (some (1 : Rat) ≠ (none : Option Rat)) :=
  ⟨rfl, by simp⟩

/-- C9 (amended): the Value Extractor is total and returns the numeric value
for a JSON number, the parse of a numeric string (absence for a malformed
string), `1`/`0` for a boolean (Python `bool` is an `int` subtype), and
absence for `null`, arrays and objects; it never raises. -/
theorem c9_extract_float_characterization :
    (∀ q : Rat, extractFloatV (JsonVal.num q) = some q) ∧
    (∀ s : String, extractFloatV (JsonVal.str s) = pyFloatParse s) ∧
    (∀ b : Bool, extractFloatV (JsonVal.bool b) = some (if b then 1 else 0)) ∧
    extractFloatV JsonVal.null = none ∧
    (∀ es, extractFloatV (JsonVal.arr es) = none) ∧
    (∀ fs, extractFloatV (JsonVal.obj fs) = none) :=
  ⟨fun _ => rfl, fun _ => rfl, fun _ => rfl, rfl, fun _ => rfl, fun _ => rfl⟩

/-- C8, code bug: an overview line carrying no resolvable value field makes
`_add_unmatched_overview_entries` store `None` into the `chaos_value` field
that `CurrencyEntry` declares as a non-optional `float` — the entity's base
value is absent, not a non-negative number, and the later
`entries.sort(key=…chaos_value…)` then raises `TypeError`. -/
theorem c8_unmatched_entry_none_value :
    addUnmatchedEntryChaos [("name", JsonVal.str "Foo Orb")] none = none := by
  decide

/-- C1, counterexample: a line carrying the direct base-unit field
`chaosEquivalent = 0.0` together with `primaryValue = 5` and conversion rate
`2` resolves to `10` (`primaryValue × rate`), not to the direct field's
value `0` — the falsy direct value falls through the Python `or`-chain. -/
theorem c1_counterexample :
    computeChaosFromLine [("chaosEquivalent", JsonVal.num 0), ("primaryValue", JsonVal.num 5)]
        (some 2) = some 10 ∧
    extractFloat (objGet [("chaosEquivalent", JsonVal.num 0), ("primaryValue", JsonVal.num 5)]
        "chaosEquivalent") = some 0 ∧
    (10 : Rat) ≠ 0 := by
  refine ⟨?_, by decide, by norm_num⟩
  have h : computeChaosFromLine
      [("chaosEquivalent", JsonVal.num 0), ("primaryValue", JsonVal.num 5)] (some 2)
      = some (5 * 2) := rfl
  rw [h]
  norm_num

/-- C1 (amended): the cascade stages of `_compute_chaos_from_line` are tried
in the stated order with the first success winning, where a success of the
direct stage means a truthy (nonzero) extracted value for the first four
fields, the final `secondary` field winning even at zero: whenever the
direct `or`-chain succeeds its value is returned regardless of
`primaryValue` and the rate; with the direct stage failed, a present
`primaryValue` with a truthy rate wins over `volumePrimaryValue`; then
`volumePrimaryValue` with a truthy rate; then the `rate`-object
sub-cascade, which is also the outcome whenever the rate is falsy or both
primary values are absent. -/
theorem c1_cascade_priority (line : JsonObj) (r : Option Rat) :
    (∀ v, directChain line = some v → computeChaosFromLine line r = some v) ∧
    (directChain line = none →
      ∀ p rr, extractFloat (objGet line "primaryValue") = some p → r = some rr → rr ≠ 0 →
        computeChaosFromLine line r = some (p * rr)) ∧
    (directChain line = none → extractFloat (objGet line "primaryValue") = none →
      ∀ vp rr, extractFloat (objGet line "volumePrimaryValue") = some vp → r = some rr → rr ≠ 0 →
        computeChaosFromLine line r = some (vp * rr)) ∧
    (directChain line = none → truthyR r = false →
      computeChaosFromLine line r = rateObjStep line r) ∧
    (directChain line = none → extractFloat (objGet line "primaryValue") = none →
      extractFloat (objGet line "volumePrimaryValue") = none →
      computeChaosFromLine line r = rateObjStep line r) := by
  refine ⟨?_, ?_, ?_, ?_, ?_⟩
  · intro v hv
    simp [computeChaosFromLine, hv]
  · intro hd p rr hp hr hrr
    subst hr
    simp [computeChaosFromLine, hd, hp, hrr]
  · intro hd hp vp rr hvp hr hrr
    subst hr
    simp [computeChaosFromLine, hd, hp, hvp, hrr]
  · intro hd hr
    cases hcr : r with
    | none =>
        simp only [computeChaosFromLine, hd]
        rcases hpv : extractFloat (objGet line "primaryValue") with _ | p <;>
          rcases hvv : extractFloat (objGet line "volumePrimaryValue") with _ | vp <;>
          simp [hpv, hvv]
    | some rr =>
        have hrr : rr = 0 := by
          simpa [hcr, truthyR] using hr
        subst hrr
        simp only [computeChaosFromLine, hd]
        rcases hpv : extractFloat (objGet line "primaryValue") with _ | p <;>
          rcases hvv : extractFloat (objGet line "volumePrimaryValue") with _ | vp <;>
          simp [hpv, hvv]
  · intro hd hp hv
    cases hcr : r with
    | none => simp [computeChaosFromLine, hd, hcr, hp, hv]
    | some rr => simp [computeChaosFromLine, hd, hcr, hp, hv]

/-- C1, witness: a truthy direct field (`chaosEquivalent = 7`) beats a
present `primaryValue = 5` with rate `2`; with no direct field at all the
second stage yields `5 × 2 = 10`. -/
theorem c1_witness :
    computeChaosFromLine [("chaosEquivalent", JsonVal.num 7), ("primaryValue", JsonVal.num 5)]
        (some 2) = some 7 ∧
    computeChaosFromLine [("primaryValue", JsonVal.num 5)] (some 2) = some 10 := by
  constructor
  · exact (c1_cascade_priority _ (some 2)).1 7 (by decide)
  · have h := (c1_cascade_priority [("primaryValue", JsonVal.num 5)] (some 2)).2.1
      (by decide) 5 2 (by decide) rfl (by norm_num)
    have : (5 : Rat) * 2 = 10 := by norm_num
    rwa [this] at h

/-- C10: when both the owner and the duplicate carry a baseline (divine)
ratio, `_merge_entry_attributes` stores the larger of the two on the owner —
so an already-set baseline ratio is replaced, not merely filled when
missing. -/
theorem c10_divine_ratio_max (t s : CurrencyEntry) (a b : Rat)
    (ht : t.divine_value = some a) (hs : s.divine_value = some b) :
    (mergeEntryAttributes t s).divine_value = some (max a b) := by
  simp only [mergeEntryAttributes, ht, hs]
  rcases lt_or_le a b with h | h
  · simp [if_pos h, max_eq_right h.le]
  · simp [if_neg (not_lt.mpr h), max_eq_left h]

/-- C10, witness: an owner with baseline ratio `1` merged with a duplicate
carrying `2` ends with ratio `2` — the owner's set value changed. -/
theorem c10_witness :
    (mergeEntryAttributes { name := "x", chaos_value := 0, divine_value := some 1 }
        { name := "y", chaos_value := 0, divine_value := some 2 }).divine_value = some 2 ∧
    ({ name := "x", chaos_value := 0, divine_value := some 1 : CurrencyEntry }).divine_value
      = some 1 := by
  constructor
  · have h := c10_divine_ratio_max
      { name := "x", chaos_value := 0, divine_value := some 1 }
      { name := "y", chaos_value := 0, divine_value := some 2 } 1 2 rfl rfl
    have hm : max (1 : Rat) 2 = 2 := by norm_num
    rwa [hm] at h
  · rfl

/-- C4, counterexample: the external id is not among the attributes
`_merge_entry_attributes` fills — an owner without `details_id` merged with
a duplicate carrying one ends with no external id, losing an attribute set
on one of the two. -/
theorem c4_counterexample :
    (mergeEntryAttributes { name := "a", chaos_value := 1 }
        { name := "b", chaos_value := 1, details_id := some "exalted-orb" }).details_id = none ∧
    ({ name := "b", chaos_value := 1, details_id := some "exalted-orb" : CurrencyEntry }).details_id
      = some "exalted-orb" :=
  ⟨rfl, rfl⟩

/-- C4 (amended): for two entities merged by the Deduplicator, the merged
base value is the maximum of the two; the baseline ratio and change percent
are set iff set on at least one of the two; the trend series, trade volume
and icon are truthy (nonempty/nonzero) iff truthy on at least one of the
two; the owner's name and external id are kept unchanged (the duplicate's
external id is not merged); and any attribute truthily set on the owner
keeps its value, except the baseline ratio which may only grow (C10). -/
theorem c4_merge_attribute_preservation (t s : CurrencyEntry) :
    (mergeEntryAttributes t s).chaos_value = max t.chaos_value s.chaos_value ∧
    ((mergeEntryAttributes t s).divine_value ≠ none ↔
      t.divine_value ≠ none ∨ s.divine_value ≠ none) ∧
    ((mergeEntryAttributes t s).sparkline ≠ [] ↔ t.sparkline ≠ [] ∨ s.sparkline ≠ []) ∧
    (truthyI (mergeEntryAttributes t s).trade_count ↔
      truthyI t.trade_count ∨ truthyI s.trade_count) ∧
    ((mergeEntryAttributes t s).change_percent ≠ none ↔
      t.change_percent ≠ none ∨ s.change_percent ≠ none) ∧
    (truthyS (mergeEntryAttributes t s).icon_url ↔ truthyS t.icon_url ∨ truthyS s.icon_url) ∧
    (mergeEntryAttributes t s).name = t.name ∧
    (mergeEntryAttributes t s).details_id = t.details_id ∧
    (t.sparkline ≠ [] → (mergeEntryAttributes t s).sparkline = t.sparkline) ∧
    (truthyI t.trade_count → (mergeEntryAttributes t s).trade_count = t.trade_count) ∧
    (t.change_percent ≠ none → (mergeEntryAttributes t s).change_percent = t.change_percent) ∧
    (truthyS t.icon_url → (mergeEntryAttributes t s).icon_url = t.icon_url) := by
  refine ⟨?_, ?_, ?_, ?_, ?_, ?_, rfl, rfl, ?_, ?_, ?_, ?_⟩
  · simp only [mergeEntryAttributes]
    rcases lt_or_le t.chaos_value s.chaos_value with h | h
    · simp [if_pos h, max_eq_right h.le]
    · simp [if_neg (not_lt.mpr h), max_eq_left h]
  · rcases hs : s.divine_value with _ | sv <;> rcases ht : t.divine_value with _ | tv <;>
      (simp [mergeEntryAttributes, hs, ht]; try (split <;> simp))
  · by_cases h1 : t.sparkline = [] <;> by_cases h2 : s.sparkline = [] <;>
      simp [mergeEntryAttributes, h1, h2]
  · by_cases h1 : truthyI t.trade_count <;> by_cases h2 : truthyI s.trade_count <;>
      simp [mergeEntryAttributes, h1, h2]
  · rcases ht : t.change_percent with _ | tv <;> rcases hs : s.change_percent with _ | sv <;>
      simp [mergeEntryAttributes, ht, hs]
  · by_cases h1 : truthyS t.icon_url <;> by_cases h2 : truthyS s.icon_url <;>
      simp [mergeEntryAttributes, h1, h2]
  · intro h1
    simp [mergeEntryAttributes, h1]
  · intro h1
    simp [mergeEntryAttributes, h1]
  · intro h1
    rcases ht : t.change_percent with _ | tv
    · exact absurd ht h1
    · rcases hs : s.change_percent with _ | sv <;> simp [mergeEntryAttributes, ht, hs]
  · intro h1
    simp [mergeEntryAttributes, h1]

/-- C4, witness: with every attribute truthily set on the owner, the merged
entity keeps the owner's trend series, trade volume, change percent and
icon. -/
theorem c4_witness :
    (mergeEntryAttributes
        { name := "a", chaos_value := 1, divine_value := some 3, change_percent := some 2,
          sparkline := [1], trade_count := some 4, details_id := some "d",
          icon_url := some "i" }
        { name := "b", chaos_value := 5 }).sparkline = [1] ∧
    (mergeEntryAttributes
        { name := "a", chaos_value := 1, divine_value := some 3, change_percent := some 2,
          sparkline := [1], trade_count := some 4, details_id := some "d",
          icon_url := some "i" }
        { name := "b", chaos_value := 5 }).trade_count = some 4 ∧
    (mergeEntryAttributes
        { name := "a", chaos_value := 1, divine_value := some 3, change_percent := some 2,
          sparkline := [1], trade_count := some 4, details_id := some "d",
          icon_url := some "i" }
        { name := "b", chaos_value := 5 }).change_percent = some 2 ∧
    (mergeEntryAttributes
        { name := "a", chaos_value := 1, divine_value := some 3, change_percent := some 2,
          sparkline := [1], trade_count := some 4, details_id := some "d",
          icon_url := some "i" }
        { name := "b", chaos_value := 5 }).icon_url = some "i" := by
  obtain ⟨h1, h2, h3, h4, h5, h6, h7, h8, h9, h10, h11, h12⟩ :=
    c4_merge_attribute_preservation
      { name := "a", chaos_value := 1, divine_value := some 3, change_percent := some 2,
        sparkline := [1], trade_count := some 4, details_id := some "d",
        icon_url := some "i" }
      { name := "b", chaos_value := 5 }
  exact ⟨h9 (by simp), h10 (by decide), h11 (by simp), h12 (by decide)⟩

/-- C6, code bug: a candidate alias endpoint answering with syntactically
valid JSON whose top level is not an object (here `[]`) makes
`_fetch_poe2_items_once` call `data.get("items")` on a non-`dict`, raising
an uncaught `AttributeError` that surfaces to the caller instead of being
treated as "this candidate yielded nothing" — even though the very next
alias in the cascade would have returned data. -/
theorem c6_alias_shape_crash :
    fetchItemsWithAliases
        (fun a =>
          if a = "Currency" then some (JsonVal.arr [])
          else if a = "currency" then
            some (JsonVal.obj [("items", JsonVal.arr [JsonVal.obj [("name", JsonVal.str "Chaos Orb")]])])
          else none)
        "currency" = Except.error "AttributeError" ∧
    fetchPoe2ItemsOnce
        (fun a =>
          if a = "Currency" then some (JsonVal.arr [])
          else if a = "currency" then
            some (JsonVal.obj [("items", JsonVal.arr [JsonVal.obj [("name", JsonVal.str "Chaos Orb")]])])
          else none)
        "currency" = Except.ok [JsonVal.obj [("name", JsonVal.str "Chaos Orb")]] :=
  ⟨rfl, rfl⟩

/-- C7, counterexample: the detail-fetch selection takes the first
`MAX_DETAIL_ENTRIES` entities in pipeline encounter order, not the top
entities by base-unit value — a 51st entity worth `100` (every selected one
worth `1`) gets no detail lookup. -/
theorem c7_counterexample :
    "big" ∉ detailIds
        ((List.range MAX_DETAIL_ENTRIES).map
            (fun i => { name := toString i, chaos_value := 1, details_id := some (toString i) })
          ++ [{ name := "big", chaos_value := 100, details_id := some "big" }]) ∧
    ({ name := "big", chaos_value := 100, details_id := some "big" : CurrencyEntry } ∈
        ((List.range MAX_DETAIL_ENTRIES).map
            (fun i => { name := toString i, chaos_value := 1, details_id := some (toString i) })
          ++ [{ name := "big", chaos_value := 100, details_id := some "big" :
                CurrencyEntry }])) ∧
    (∀ e ∈ ((List.range MAX_DETAIL_ENTRIES).map
            (fun i => { name := toString i, chaos_value := 1, details_id := some (toString i) })
          ++ [{ name := "big", chaos_value := 100, details_id := some "big" :
                CurrencyEntry }]),
      e.details_id ≠ some "big" → e.chaos_value < 100) := by
  decide

/-- C7 (amended): at most `MAX_DETAIL_ENTRIES` (50) detail lookups are
issued; each looked-up id is the nonempty external id of one of the first
50 entities in pipeline encounter order (the list is not yet value-sorted
at that point), and no lookup is issued for an entity without a truthy
external id. -/
theorem c7_detail_ids_bounded (entries : List CurrencyEntry) (s : String)
    (h : s ∈ detailIds entries) :
    (detailIds entries).length ≤ MAX_DETAIL_ENTRIES ∧
    ∃ e ∈ entries.take MAX_DETAIL_ENTRIES, e.details_id = some s ∧ s ≠ "" := by
  constructor
  · calc (detailIds entries).length
        ≤ (entries.take MAX_DETAIL_ENTRIES).length := List.length_filterMap_le _ _
      _ ≤ MAX_DETAIL_ENTRIES := entries.length_take_le _
  · rw [detailIds, List.mem_filterMap] at h
    obtain ⟨e, he, hfe⟩ := h
    refine ⟨e, he, ?_⟩
    rcases hd : e.details_id with _ | d
    · rw [hd] at hfe
      simp at hfe
    · rw [hd] at hfe
      by_cases hempty : d = ""
      · simp [hempty] at hfe
      · simp [hempty] at hfe
        subst hfe
        exact ⟨rfl, hempty⟩

/-- C7, witness: a single entity with external id "x" is selected, the
selection is within the bound, and its id is nonempty. -/
theorem c7_witness :
    (detailIds [{ name := "x", chaos_value := 1, details_id := some "x" }]).length
      ≤ MAX_DETAIL_ENTRIES ∧
    ∃ e ∈ ([{ name := "x", chaos_value := 1, details_id := some "x" }] :
        List CurrencyEntry).take MAX_DETAIL_ENTRIES,
      e.details_id = some "x" ∧ "x" ≠ "" :=
  c7_detail_ids_bounded [{ name := "x", chaos_value := 1, details_id := some "x" }] "x"
    (by decide)

/-- C2, counterexample: key identity is not transitively closed by
`_deduplicate_entries`.  With owners "beta" and "alpha" already
established, a third entity keyed to both (name "beta", external id
"alpha") is merged into the owner of its first matching key variant
("alpha") only: its base value 10 lands on the "alpha" owner while the
"beta" owner — whose key set intersects the third entity's — survives
separately with value 1, so the intersecting input pair is not represented
by one single surviving entity. -/
theorem c2_counterexample :
    deduplicateEntries
        [{ name := "beta", chaos_value := 1 }, { name := "alpha", chaos_value := 2 },
         { name := "beta", chaos_value := 10, details_id := some "alpha" }] =
      [{ name := "beta", chaos_value := 1 }, { name := "alpha", chaos_value := 10 }] ∧
    "beta" ∈ entryKeys { name := "beta", chaos_value := 1 } ∧
    "beta" ∈ entryKeys { name := "beta", chaos_value := 10, details_id := some "alpha" } ∧
    "alpha" ∈ entryKeys { name := "alpha", chaos_value := 2 } ∧
    "alpha" ∈ entryKeys { name := "beta", chaos_value := 10, details_id := some "alpha" } := by
  decide

/-- C5, counterexample: the looser "exalt" substring fallback of
`_apply_exalted_values` does not exclude higher-tier variants — with only a
"Perfect Exalted Orb" present (rejected by the exact-style scan), the
fallback still adopts its price 100 as the premium reference and stamps
ratios from it, where the claim's exclusion of "perfect"-qualified names
would find no reference and stamp nothing. -/
theorem c5_counterexample :
    exaltRefPrice [{ name := "Perfect Exalted Orb", chaos_value := 100 },
        { name := "Scroll", chaos_value := 50 }] = some 100 ∧
    containsSub (lowerStr "Perfect Exalted Orb") "perfect" = true ∧
    exaltCandidatesExact [{ name := "Perfect Exalted Orb", chaos_value := 100 },
        { name := "Scroll", chaos_value := 50 }] = [] ∧
    (applyExaltedValues [{ name := "Perfect Exalted Orb", chaos_value := 100 },
        { name := "Scroll", chaos_value := 50 }]).map (fun e => e.exalt_value)
      = [some 1, some (1 / 2)] := by
  refine ⟨by decide, by decide, by decide, ?_⟩
  have h : (applyExaltedValues [{ name := "Perfect Exalted Orb", chaos_value := 100 },
      { name := "Scroll", chaos_value := 50 }]).map (fun e => e.exalt_value)
      = [some (100 / 100), some (50 / 100)] := rfl
  rw [h]
  norm_num

/-- Python `min(candidates)` starting from the head is a member of the
candidate list. -/
theorem foldlMin_mem (c : Rat) (cs : List Rat) : cs.foldl min c ∈ c :: cs := by
  induction cs generalizing c with
  | nil => simp
  | cons d ds ih =>
      rw [List.foldl_cons]
      rcases List.mem_cons.mp (ih (min c d)) with h | h
      · rcases min_choice c d with hm | hm
        · rw [h, hm]
          exact List.mem_cons_self _ _
        · rw [h, hm]
          exact List.mem_cons_of_mem _ (List.mem_cons_self _ _)
      · exact List.mem_cons_of_mem _ (List.mem_cons_of_mem _ h)

/-- Python `min(candidates)` is a lower bound of the candidate list. -/
theorem foldlMin_le (c : Rat) (cs : List Rat) : ∀ x ∈ c :: cs, cs.foldl min c ≤ x := by
  induction cs generalizing c with
  | nil =>
      intro x hx
      rw [List.mem_singleton] at hx
      simp [hx]
  | cons d ds ih =>
      intro x hx
      rw [List.foldl_cons]
      have hhead : ds.foldl min (min c d) ≤ min c d :=
        ih (min c d) (min c d) (List.mem_cons_self _ _)
      rcases List.mem_cons.mp hx with hx1 | hx1
      · rw [hx1]
        exact le_trans hhead (min_le_left c d)
      · rcases List.mem_cons.mp hx1 with hx2 | hx2
        · rw [hx2]
          exact le_trans hhead (min_le_right c d)
        · exact ih (min c d) x (List.mem_cons_of_mem _ hx2)

/-- Every price collected by the looser "exalt" scan is positive. -/
theorem exaltCandidatesLoose_pos (entries : List CurrencyEntry) :
    ∀ c ∈ exaltCandidatesLoose entries, 0 < c := by
  intro c hc
  rw [exaltCandidatesLoose] at hc
  obtain ⟨e, _, hfe⟩ := List.mem_filterMap.mp hc
  split_ifs at hfe with h1
  obtain rfl := Option.some.inj hfe
  exact h1.2

/-- Every price collected by the exact-style scan is positive. -/
theorem exaltCandidatesExact_pos (entries : List CurrencyEntry) :
    ∀ c ∈ exaltCandidatesExact entries, 0 < c := by
  intro c hc
  rw [exaltCandidatesExact] at hc
  obtain ⟨e, _, hfe⟩ := List.mem_filterMap.mp hc
  dsimp only at hfe
  split_ifs at hfe with h1 h2 h3
  · obtain rfl := Option.some.inj hfe
    exact h2
  · obtain rfl := Option.some.inj hfe
    exact h3.2

/-- Every premium-unit candidate price collected by `_apply_exalted_values`
is positive (both scans guard on `chaos_value > 0`). -/
theorem exaltCandidates_pos (entries : List CurrencyEntry) :
    ∀ c ∈ exaltCandidates entries, 0 < c := by
  intro c hc
  simp only [exaltCandidates] at hc
  split at hc
  · exact exaltCandidatesLoose_pos entries c hc
  · exact exaltCandidatesExact_pos entries c hc

/-- C5 (amended): when `_apply_exalted_values` resolves a premium reference
price, that price is the minimum of the collected candidates (the
exact-style scan, or the looser "exalt" substring scan only when the former
found nothing — the "perfect"/"greater" exclusion applies only to the
exact-style name scan), it is positive, and every entity in the output
carries `premiumValue = baseValue / reference` when its base value is
truthy and no premium ratio when its base value is zero. -/
theorem c5_premium_reference_and_ratios (entries : List CurrencyEntry) (p : Rat)
    (h : exaltRefPrice entries = some p) :
    0 < p ∧ p ∈ exaltCandidates entries ∧ (∀ c ∈ exaltCandidates entries, p ≤ c) ∧
    ∀ e ∈ applyExaltedValues entries,
      e.exalt_value = if e.chaos_value = 0 then none else some (e.chaos_value / p) := by
  rcases hc : exaltCandidates entries with _ | ⟨c0, cs⟩
  · rw [exaltRefPrice, hc] at h
    cases h
  · have h' : some (cs.foldl min c0) = some p := by
      rw [exaltRefPrice, hc] at h
      exact h
    have hp : cs.foldl min c0 = p := Option.some.inj h'
    have hmem : p ∈ c0 :: cs := hp ▸ foldlMin_mem c0 cs
    have hle : ∀ x ∈ c0 :: cs, p ≤ x := by
      intro x hx
      rw [← hp]
      exact foldlMin_le c0 cs x hx
    have hpos : 0 < p := exaltCandidates_pos entries p (by rw [hc]; exact hmem)
    refine ⟨hpos, hmem, hle, ?_⟩
    intro e he
    simp only [applyExaltedValues, h] at he
    rw [if_neg (not_le.mpr hpos)] at he
    obtain ⟨e0, _, rfl⟩ := List.mem_map.mp he
    simp

/-- C5, witness: with an "Exalted Orb" at base value 2 and a "Chaos Orb" at
1, the reference is 2 (positive, minimal among the candidates) and every
output entity is stamped `baseValue / 2` (none at base value 0). -/
theorem c5_witness :
    0 < (2 : Rat) ∧
    (2 : Rat) ∈ exaltCandidates [{ name := "Exalted Orb", chaos_value := 2 },
        { name := "Chaos Orb", chaos_value := 1 }] ∧
    (∀ c ∈ exaltCandidates [{ name := "Exalted Orb", chaos_value := 2 },
        { name := "Chaos Orb", chaos_value := 1 }], (2 : Rat) ≤ c) ∧
    ∀ e ∈ applyExaltedValues [{ name := "Exalted Orb", chaos_value := 2 },
        { name := "Chaos Orb", chaos_value := 1 }],
      e.exalt_value = if e.chaos_value = 0 then none else some (e.chaos_value / 2) :=
  c5_premium_reference_and_ratios
    [{ name := "Exalted Orb", chaos_value := 2 }, { name := "Chaos Orb", chaos_value := 1 }]
    2 (by decide)

/-- Membership in a stable descending insertion. -/
theorem mem_insertDesc (e x : CurrencyEntry) (l : List CurrencyEntry) :
    x ∈ insertDesc e l ↔ x = e ∨ x ∈ l := by
  induction l with
  | nil => simp [insertDesc]
  | cons y ys ih =>
      rw [insertDesc]
      split_ifs with h
      · simp [List.mem_cons]
      · rw [List.mem_cons, ih, List.mem_cons]
        tauto

/-- Stable descending insertion preserves descending sortedness. -/
theorem pairwise_insertDesc (e : CurrencyEntry) (l : List CurrencyEntry)
    (h : l.Pairwise (fun a b => b.chaos_value ≤ a.chaos_value)) :
    (insertDesc e l).Pairwise (fun a b => b.chaos_value ≤ a.chaos_value) := by
  induction l with
  | nil => simp [insertDesc]
  | cons y ys ih =>
      rw [List.pairwise_cons] at h
      obtain ⟨hy, hys⟩ := h
      rw [insertDesc]
      split_ifs with hc
      · rw [List.pairwise_cons]
        refine ⟨?_, ?_⟩
        · intro b hb
          rcases List.mem_cons.mp hb with rfl | hb
          · exact hc
          · exact le_trans (hy b hb) hc
        · rw [List.pairwise_cons]
          exact ⟨hy, hys⟩
      · rw [List.pairwise_cons]
        refine ⟨?_, ih hys⟩
        intro b hb
        rcases (mem_insertDesc e b ys).mp hb with rfl | hb
        · exact (not_le.mp hc).le
        · exact hy b hb

/-- Inserting an entity does not disturb which equal-valued entities are
kept, nor their relative order: the inserted entity lands in front of the
equal-valued block (every element passed over is strictly larger). -/
theorem filter_insertDesc (e : CurrencyEntry) (l : List CurrencyEntry) (v : Rat) :
    (insertDesc e l).filter (fun x => decide (x.chaos_value = v)) =
      if e.chaos_value = v then
        e :: l.filter (fun x => decide (x.chaos_value = v))
      else l.filter (fun x => decide (x.chaos_value = v)) := by
  induction l with
  | nil =>
      rw [insertDesc]
      by_cases hv : e.chaos_value = v
      · rw [if_pos hv]
        simp [List.filter, hv]
      · rw [if_neg hv]
        simp [List.filter, hv]
  | cons y ys ih =>
      rw [insertDesc]
      by_cases hc : y.chaos_value ≤ e.chaos_value
      · rw [if_pos hc]
        by_cases hv : e.chaos_value = v
        · rw [if_pos hv]
          simp [List.filter_cons, hv]
        · rw [if_neg hv]
          simp [List.filter_cons, hv]
      · rw [if_neg hc]
        by_cases hv : e.chaos_value = v
        · have hyv : ¬ (y.chaos_value = v) := fun hy => hc (le_of_eq (hy.trans hv.symm))
          rw [if_pos hv]
          rw [List.filter_cons, List.filter_cons]
          simp only [hyv, decide_eq_true_eq, if_false, ih, if_pos hv]
        · rw [if_neg hv]
          rw [List.filter_cons, List.filter_cons]
          simp only [ih, if_neg hv]

/-- The modelled Python sort is descending-sorted. -/
theorem sortDesc_pairwise (l : List CurrencyEntry) :
    (sortByChaosDesc l).Pairwise (fun a b => b.chaos_value ≤ a.chaos_value) := by
  induction l with
  | nil => simp [sortByChaosDesc]
  | cons x xs ih => exact pairwise_insertDesc x (sortByChaosDesc xs) ih

/-- The modelled Python sort is stable: the sublist of entities at any fixed
base value is unchanged. -/
theorem sortDesc_filter_eq (l : List CurrencyEntry) (v : Rat) :
    (sortByChaosDesc l).filter (fun x => decide (x.chaos_value = v)) =
      l.filter (fun x => decide (x.chaos_value = v)) := by
  induction l with
  | nil => rfl
  | cons x xs ih =>
      have h : sortByChaosDesc (x :: xs) = insertDesc x (sortByChaosDesc xs) := rfl
      rw [h, filter_insertDesc]
      by_cases hv : x.chaos_value = v
      · rw [if_pos hv, ih, List.filter_cons]
        simp [hv]
      · rw [if_neg hv, ih, List.filter_cons]
        simp [hv]

/-- The divine stamping of `_fetch_poe2_snapshot` either leaves the list
unchanged or maps a base-value- and name-preserving function over it. -/
theorem stampDivine_shape (entries : List CurrencyEntry) (r : Option Rat) :
    stampDivine entries r = entries ∨
    ∃ g : CurrencyEntry → CurrencyEntry, stampDivine entries r = entries.map g ∧
      ∀ e, (g e).chaos_value = e.chaos_value ∧ (g e).name = e.name := by
  rcases r with _ | r
  · exact Or.inl rfl
  · by_cases hr : 0 < r
    · right
      refine ⟨(fun e => { e with divine_value :=
          if e.chaos_value = 0 then none else some (e.chaos_value / r) }), ?_,
        fun e => ⟨rfl, rfl⟩⟩
      simp only [stampDivine, if_pos hr]
    · left
      simp only [stampDivine, if_neg hr]

/-- The premium stamping of `_apply_exalted_values` either leaves the list
unchanged or maps a base-value- and name-preserving function over it. -/
theorem applyExaltedValues_shape (entries : List CurrencyEntry) :
    applyExaltedValues entries = entries ∨
    ∃ g : CurrencyEntry → CurrencyEntry, applyExaltedValues entries = entries.map g ∧
      ∀ e, (g e).chaos_value = e.chaos_value ∧ (g e).name = e.name := by
  rcases hre : exaltRefPrice entries with _ | p
  · left
    simp only [applyExaltedValues, hre]
  · by_cases hp : p ≤ 0
    · left
      simp only [applyExaltedValues, hre, if_pos hp]
    · right
      refine ⟨(fun e => { e with exalt_value :=
          if e.chaos_value = 0 then none else some (e.chaos_value / p) }), ?_,
        fun e => ⟨rfl, rfl⟩⟩
      simp only [applyExaltedValues, hre, if_neg hp]

/-- Filtering by base value then projecting names commutes with mapping a
base-value- and name-preserving function. -/
theorem filterName_map (l : List CurrencyEntry) (g : CurrencyEntry → CurrencyEntry)
    (hg : ∀ e, (g e).chaos_value = e.chaos_value ∧ (g e).name = e.name) (v : Rat) :
    ((l.map g).filter (fun x => decide (x.chaos_value = v))).map CurrencyEntry.name =
      (l.filter (fun x => decide (x.chaos_value = v))).map CurrencyEntry.name := by
  induction l with
  | nil => rfl
  | cons x xs ih =>
      rw [List.map_cons, List.filter_cons, List.filter_cons]
      by_cases hv : x.chaos_value = v
      · simp [(hg x).1, hv, (hg x).2, ih]
      · simp [(hg x).1, hv, ih]

/-- A base-value-preserving map keeps descending sortedness. -/
theorem pairwise_desc_map (l : List CurrencyEntry) (g : CurrencyEntry → CurrencyEntry)
    (hg : ∀ e, (g e).chaos_value = e.chaos_value)
    (h : l.Pairwise (fun a b => b.chaos_value ≤ a.chaos_value)) :
    (l.map g).Pairwise (fun a b => b.chaos_value ≤ a.chaos_value) := by
  rw [List.pairwise_map]
  exact h.imp (fun hab => by rw [hg, hg]; exact hab)

/-- C3: the entity sequence of a returned snapshot — the deduplicated list
after divine stamping, the stable descending sort of `_fetch_poe2_snapshot`
/ `_parse_snapshot_payload`, and premium stamping — is sorted descending by
base-unit value, and entities of equal base value keep their pre-sort
(first-seen) relative order, here witnessed by the name sequence at each
fixed base value. -/
theorem c3_entries_sorted_and_stable (entries : List CurrencyEntry) (divineRate : Option Rat) :
    (assemblePoe2Entries entries divineRate).Pairwise
        (fun a b => b.chaos_value ≤ a.chaos_value) ∧
    ∀ v : Rat,
      ((assemblePoe2Entries entries divineRate).filter
          (fun e => decide (e.chaos_value = v))).map CurrencyEntry.name =
        (entries.filter (fun e => decide (e.chaos_value = v))).map CurrencyEntry.name := by
  constructor
  · rcases applyExaltedValues_shape (sortByChaosDesc (stampDivine entries divineRate)) with
      hsh | ⟨g, hsh, hg⟩
    · rw [assemblePoe2Entries, hsh]
      exact sortDesc_pairwise _
    · rw [assemblePoe2Entries, hsh]
      exact pairwise_desc_map _ g (fun e => (hg e).1) (sortDesc_pairwise _)
  · intro v
    have hB : ((sortByChaosDesc (stampDivine entries divineRate)).filter
        (fun e => decide (e.chaos_value = v))).map CurrencyEntry.name =
        ((stampDivine entries divineRate).filter
          (fun e => decide (e.chaos_value = v))).map CurrencyEntry.name := by
      rw [sortDesc_filter_eq]
    have hA : ((stampDivine entries divineRate).filter
        (fun e => decide (e.chaos_value = v))).map CurrencyEntry.name =
        (entries.filter (fun e => decide (e.chaos_value = v))).map CurrencyEntry.name := by
      rcases stampDivine_shape entries divineRate with hsh | ⟨g, hsh, hg⟩
      · rw [hsh]
      · rw [hsh]
        exact filterName_map entries g hg v
    rcases applyExaltedValues_shape (sortByChaosDesc (stampDivine entries divineRate)) with
      hsh | ⟨g, hsh, hg⟩
    · rw [assemblePoe2Entries, hsh, hB, hA]
    · rw [assemblePoe2Entries, hsh, filterName_map _ g hg v, hB, hA]

/-- Key variants are never the empty string (the `if variant:` filter). -/
theorem ne_empty_of_mem_keyVariants (s x : String) (h : x ∈ keyVariants s) : x ≠ "" := by
  rw [keyVariants] at h
  exact of_decide_eq_true (List.mem_filter.mp h).2

/-- Entity keys are never the empty string. -/
theorem ne_empty_of_mem_entryKeys (e : CurrencyEntry) (x : String) (h : x ∈ entryKeys e) :
    x ≠ "" := by
  rw [entryKeys] at h
  rcases List.mem_append.mp h with h1 | h1
  · rcases hd : e.details_id with _ | d
    · rw [hd] at h1
      cases h1
    · rw [hd] at h1
      exact ne_empty_of_mem_keyVariants d x h1
  · exact ne_empty_of_mem_keyVariants e.name x h1

/-- Merging duplicate attributes never changes an entity's key set
(`_merge_entry_attributes` touches neither `name` nor `details_id`). -/
theorem entryKeys_merge (t s : CurrencyEntry) :
    entryKeys (mergeEntryAttributes t s) = entryKeys t := rfl

/-- Lookup through an appended association list. -/
theorem lookupKey_append (m1 m2 : List (String × Nat)) (k : String) :
    lookupKey (m1 ++ m2) k =
      match lookupKey m1 k with
      | some i => some i
      | none => lookupKey m2 k := by
  induction m1 with
  | nil => rfl
  | cons p rest ih =>
      obtain ⟨k0, i0⟩ := p
      rw [List.cons_append]
      by_cases h : k0 = k
      · simp only [lookupKey, if_pos h]
      · simp only [lookupKey, if_neg h, ih]

/-- `setdefault` never changes an existing binding. -/
theorem lookupKey_setdefault_preserve (m : List (String × Nat)) (k k' : String) (i j : Nat)
    (h : lookupKey m k' = some j) :
    lookupKey (setdefaultKey m k i) k' = some j := by
  cases hl : lookupKey m k with
  | some i0 => simp only [setdefaultKey, hl]; exact h
  | none =>
      simp only [setdefaultKey, hl]
      rw [lookupKey_append, h]

/-- A binding found after `setdefault` was either already there or is the
new one. -/
theorem lookupKey_setdefault_cases (m : List (String × Nat)) (k k' : String) (i j : Nat)
    (h : lookupKey (setdefaultKey m k i) k' = some j) :
    lookupKey m k' = some j ∨ (k' = k ∧ j = i) := by
  cases hl : lookupKey m k with
  | some i0 =>
      simp only [setdefaultKey, hl] at h
      exact Or.inl h
  | none =>
      simp only [setdefaultKey, hl] at h
      rw [lookupKey_append] at h
      cases hm : lookupKey m k' with
      | some i1 =>
          simp only [hm] at h
          exact Or.inl h
      | none =>
          simp only [hm] at h
          by_cases hk : k = k'
          · simp only [lookupKey, if_pos hk] at h
            exact Or.inr ⟨hk.symm, (Option.some.inj h).symm⟩
          · simp only [lookupKey, if_neg hk] at h
            cases h

/-- The key-registration loop never changes an existing binding. -/
theorem lookupKey_addKeys_preserve (ks : List String) :
    ∀ (m : List (String × Nat)) (i : Nat) (k' : String) (j : Nat),
      lookupKey m k' = some j → lookupKey (addKeys m ks i) k' = some j := by
  induction ks with
  | nil => intro m i k' j h; exact h
  | cons k0 rest ih =>
      intro m i k' j h
      rw [addKeys]
      by_cases h0 : k0 = ""
      · rw [if_pos h0]
        exact ih m i k' j h
      · rw [if_neg h0]
        exact ih _ i k' j (lookupKey_setdefault_preserve m k0 k' i j h)

/-- A binding found after the key-registration loop was either already
there or points at the new owner index. -/
theorem lookupKey_addKeys_cases (ks : List String) :
    ∀ (m : List (String × Nat)) (i : Nat) (k' : String) (j : Nat),
      lookupKey (addKeys m ks i) k' = some j → lookupKey m k' = some j ∨ j = i := by
  induction ks with
  | nil => intro m i k' j h; exact Or.inl h
  | cons k0 rest ih =>
      intro m i k' j h
      rw [addKeys] at h
      rcases ih _ i k' j h with h1 | h1
      · by_cases h0 : k0 = ""
        · rw [if_pos h0] at h1
          exact Or.inl h1
        · rw [if_neg h0] at h1
          rcases lookupKey_setdefault_cases m k0 k' i j h1 with h2 | ⟨_, h2⟩
          · exact Or.inl h2
          · exact Or.inr h2
      · exact Or.inr h1

/-- Registering keys whose bindings were absent (or already the owner's)
makes every nonempty registered key point at the owner. -/
theorem lookupKey_addKeys_assign (ks : List String) :
    ∀ (m : List (String × Nat)) (i : Nat),
      (∀ x ∈ ks, lookupKey m x = none ∨ lookupKey m x = some i) →
      ∀ k ∈ ks, k ≠ "" → lookupKey (addKeys m ks i) k = some i := by
  induction ks with
  | nil => intro m i _ k hk; cases hk
  | cons k0 rest ih =>
      intro m i hnone k hk hke
      rw [addKeys]
      have hstep : ∀ x ∈ rest,
          lookupKey (if k0 = "" then m else setdefaultKey m k0 i) x = none ∨
          lookupKey (if k0 = "" then m else setdefaultKey m k0 i) x = some i := by
        intro x hx
        by_cases h0 : k0 = ""
        · rw [if_pos h0]
          exact hnone x (List.mem_cons_of_mem _ hx)
        · rw [if_neg h0]
          rcases hnone x (List.mem_cons_of_mem _ hx) with h1 | h1
          · cases hsd : lookupKey (setdefaultKey m k0 i) x with
            | none => exact Or.inl rfl
            | some j =>
                rcases lookupKey_setdefault_cases m k0 x i j hsd with h2 | ⟨_, h2⟩
                · rw [h1] at h2
                  cases h2
                · exact Or.inr (congrArg some h2)
          · exact Or.inr (lookupKey_setdefault_preserve m k0 x i i h1)
      rcases List.mem_cons.mp hk with rfl | hk1
      · have hk0 : lookupKey (if k = "" then m else setdefaultKey m k i) k = some i := by
          rw [if_neg hke]
          rcases hnone k (List.mem_cons_self _ _) with h1 | h1
          · simp only [setdefaultKey, h1]
            rw [lookupKey_append, h1]
            simp [lookupKey]
          · exact lookupKey_setdefault_preserve m k k i i h1
        exact lookupKey_addKeys_preserve rest _ i k i hk0
      · exact ih _ i hstep k hk1 hke

/-- A found owner comes from some key variant's binding. -/
theorem findOwner_some (m : List (String × Nat)) (ks : List String) (i : Nat)
    (h : findOwner m ks = some i) : ∃ k ∈ ks, lookupKey m k = some i := by
  induction ks with
  | nil => cases h
  | cons k0 rest ih =>
      cases hl : lookupKey m k0 with
      | some i0 =>
          simp only [findOwner, hl] at h
          exact ⟨k0, List.mem_cons_self _ _, by rw [hl, h]⟩
      | none =>
          simp only [findOwner, hl] at h
          obtain ⟨k, hk, hkl⟩ := ih h
          exact ⟨k, List.mem_cons_of_mem _ hk, hkl⟩

/-- When no owner is found, no key variant is bound. -/
theorem findOwner_none (m : List (String × Nat)) (ks : List String)
    (h : findOwner m ks = none) : ∀ k ∈ ks, lookupKey m k = none := by
  induction ks with
  | nil => intro k hk; cases hk
  | cons k0 rest ih =>
      intro k hk
      cases hl : lookupKey m k0 with
      | some i0 =>
          simp only [findOwner, hl] at h
          exact Option.noConfusion h
      | none =>
          simp only [findOwner, hl] at h
          rcases List.mem_cons.mp hk with rfl | hk1
          · exact hl
          · exact ih h k hk1

/-- In-place update keeps the length. -/
theorem length_modifyIdx (f : CurrencyEntry → CurrencyEntry) (i : Nat)
    (l : List CurrencyEntry) : (modifyIdx f i l).length = l.length := by
  induction l generalizing i with
  | nil => cases i <;> rfl
  | cons x xs ih =>
      cases i with
      | zero => rfl
      | succ i' => simp [modifyIdx, ih]

/-- Element access after an in-place update. -/
theorem getElem?_modifyIdx (f : CurrencyEntry → CurrencyEntry) (i : Nat)
    (l : List CurrencyEntry) (j : Nat) :
    (modifyIdx f i l)[j]? = if j = i then (l[j]?).map f else l[j]? := by
  induction l generalizing i j with
  | nil => cases i <;> cases j <;> simp [modifyIdx]
  | cons x xs ih =>
      cases i with
      | zero =>
          cases j with
          | zero => simp [modifyIdx]
          | succ j' => simp [modifyIdx]
      | succ i' =>
          cases j with
          | zero => simp [modifyIdx]
          | succ j' =>
              simp only [modifyIdx, List.getElem?_cons_succ, ih, Nat.succ_eq_add_one]
              by_cases hji : j' = i'
              · simp [hji]
              · simp [hji, fun h => hji (Nat.succ_injective h)]

/-- Loop invariant of `_deduplicate_entries`: every key binding points at
a live owner index, and every key of every owner is bound to that owner. -/
def OwnersInv (st : DedupState) : Prop :=
  (∀ k j, lookupKey st.kmap k = some j → j < st.owners.length) ∧
  (∀ j e, st.owners[j]? = some e → ∀ k, k ∈ entryKeys e → lookupKey st.kmap k = some j)

/-- One dedup iteration preserves the loop invariant. -/
theorem dedupStep_inv (st : DedupState) (e : CurrencyEntry) (h : OwnersInv st) :
    OwnersInv (dedupStep st e) := by
  obtain ⟨hbound, hown⟩ := h
  cases hfo : findOwner st.kmap (entryKeys e) with
  | some i =>
      have hi : i < st.owners.length := by
        obtain ⟨k, _, hkl⟩ := findOwner_some _ _ _ hfo
        exact hbound k i hkl
      constructor
      · intro k j hkj
        simp only [dedupStep, hfo] at hkj ⊢
        rw [length_modifyIdx]
        rcases lookupKey_addKeys_cases _ _ _ _ _ hkj with h1 | h1
        · exact hbound k j h1
        · exact h1 ▸ hi
      · intro j e0 hj k hk
        simp only [dedupStep, hfo] at hj ⊢
        rw [getElem?_modifyIdx] at hj
        by_cases hji : j = i
        · subst hji
          rw [if_pos rfl] at hj
          cases ho : st.owners[j]? with
          | none =>
              rw [ho] at hj
              cases hj
          | some t =>
              rw [ho] at hj
              have he0 : e0 = mergeEntryAttributes t e := (Option.some.inj hj).symm
              subst he0
              rw [entryKeys_merge] at hk
              exact lookupKey_addKeys_preserve _ _ _ _ _ (hown j t ho k hk)
        · rw [if_neg hji] at hj
          exact lookupKey_addKeys_preserve _ _ _ _ _ (hown j e0 hj k hk)
  | none =>
      constructor
      · intro k j hkj
        simp only [dedupStep, hfo] at hkj ⊢
        simp only [List.length_append, List.length_singleton]
        rcases lookupKey_addKeys_cases _ _ _ _ _ hkj with h1 | h1
        · have := hbound k j h1
          omega
        · omega
      · intro j e0 hj k hk
        simp only [dedupStep, hfo] at hj ⊢
        rw [List.getElem?_append] at hj
        by_cases hjn : j < st.owners.length
        · rw [if_pos hjn] at hj
          exact lookupKey_addKeys_preserve _ _ _ _ _ (hown j e0 hj k hk)
        · rw [if_neg hjn] at hj
          cases hd : j - st.owners.length with
          | succ m =>
              rw [hd] at hj
              simp at hj
          | zero =>
              rw [hd] at hj
              have hje : j = st.owners.length := by omega
              have he0 : e = e0 := by simpa using hj
              rw [← he0] at hk
              have hknil : entryKeys e ≠ [] := by
                intro h0
                rw [h0] at hk
                cases hk
              rw [if_neg hknil, hje]
              refine lookupKey_addKeys_assign _ _ _ ?_ k hk
                (ne_empty_of_mem_entryKeys e k hk)
              intro x hx
              exact Or.inl (findOwner_none _ _ hfo x hx)

/-- The dedup loop preserves the invariant from any starting state. -/
theorem foldl_dedupStep_inv (entries : List CurrencyEntry) :
    ∀ st : DedupState, OwnersInv st → OwnersInv (List.foldl dedupStep st entries) := by
  induction entries with
  | nil => intro st h; exact h
  | cons e rest ih =>
      intro st h
      exact ih _ (dedupStep_inv st e h)

/-- C2 (amended): in the list returned by `_deduplicate_entries` no two
distinct entities share any normalized key — each duplicate is merged into
the established owner of its first matching key variant.  (Key identity is
not transitively closed, see the counterexample: an entity bridging two
established owners merges into only one of them.) -/
theorem c2_dedup_no_shared_keys (entries : List CurrencyEntry) :
    (deduplicateEntries entries).Pairwise
      (fun a b => ∀ k, k ∈ entryKeys a → k ∉ entryKeys b) := by
  have hinit : OwnersInv ⟨[], []⟩ := by
    constructor
    · intro k j h
      simp [lookupKey] at h
    · intro j e0 h
      simp at h
  have hinv := foldl_dedupStep_inv entries ⟨[], []⟩ hinit
  rw [deduplicateEntries, List.pairwise_iff_getElem]
  intro i j hi hj hij
  intro k hk1 hk2
  have h1 := hinv.2 i _ (List.getElem?_eq_getElem hi) k hk1
  have h2 := hinv.2 j _ (List.getElem?_eq_getElem hj) k hk2
  rw [h1] at h2
  have : i = j := Option.some.inj h2
  omega
